import Mathlib

/-!
Verification of the signal windowing / conversion engine of `idp2023`
(`signal_analyzer.py`, `signal_converter.py`).

The Python code is shallowly embedded: numpy arrays become `List`s, a sample
row becomes a pair of integers, `NaN` ("missing marker") becomes `none` in an
`Option`, the `±inf` initial extrema become `none` in an `Option Int`
(`none` = `+inf` for the running minimum, `none` = `-inf` for the running
maximum), and the asynchronous `cancelled` / `running` flags become explicit
schedules saying at which polled checkpoint the flag is first observed set.
Machine 16-bit integer casts are modelled with explicit `% 2^16` arithmetic
on `Int`.
-/

/-- A sample row: the two channel readings `(adc1, adc2)` of one data row. -/
abbrev Sample : Type := Int × Int

/-- `np.uint16` cast of an integer (used by `_read_signal`'s CSV branch:
`np.array(row, np.uint16)` wraps the parsed integer modulo `2^16`). -/
def wrapU16 (v : Int) : Int := v % 65536

/-- `np.int16` cast of an integer (the converter's target memmap has
`dtype=np.int16`; assigning a value wraps it into `[-32768, 32767]`). -/
def wrapI16 (v : Int) : Int := (v + 32768) % 65536 - 32768

/-- A signal file as seen by `SignalAnalyzer`: the path can be missing or not
a file (`missing`), a `.csv` file with the given parsed data rows (the header
row is not part of the data), a `.npy` flat binary file holding the given
rows, or a file with an unsupported suffix. -/
inductive SignalFile : Type where
  | missing : SignalFile
  | csv (rows : List Sample) : SignalFile
  | npy (rows : List Sample) : SignalFile
  | unsupported : SignalFile
deriving DecidableEq

/-- Loop body of `_read_signal`'s CSV branch.  `buf` is the reused
`np.zeros((chunk_size, 2))` buffer, `i` the `enumerate` index of the current
row.  Every row is written into slot `i % cs`; the buffer is yielded whenever
`i > 0 ∧ i % cs = 0` (after the write, which is the source's off-by-one).
Returns the yielded chunks, the final buffer and the index after the loop. -/
def csvGo (cs : Nat) (buf : List Sample) (i : Nat) :
    List Sample → List (List Sample) × List Sample × Nat
  | [] => ([], buf, i)
  | r :: rest =>
    let buf' := buf.set (i % cs) (wrapU16 r.1, wrapU16 r.2)
    let out := csvGo cs buf' (i + 1) rest
    (if 0 < i ∧ i % cs = 0 then buf' :: out.1 else out.1, out.2.1, out.2.2)

/-- `_read_signal`, CSV branch: chunked generator over the data rows.  After
the loop, the partial buffer prefix `data[: i % cs]` is yielded when
`i % cs ≠ 0`, where `i` is the Python loop variable after the loop (the last
row's index, or `0` for an empty file). -/
def csvChunks (cs : Nat) (rows : List Sample) : List (List Sample) :=
  let buf0 := List.replicate cs ((0 : Int), (0 : Int))
  let out := csvGo cs buf0 0 rows
  let iLast := if rows = [] then 0 else out.2.2 - 1
  if iLast % cs ≠ 0 then out.1 ++ [out.2.1.take (iLast % cs)] else out.1

/-- `_read_signal`, `.npy` branch: `for chunk_start in range(0, max_x, cs):
yield signal[chunk_start : chunk_start + cs]`, reified by the stride index
`k`; `range(0, n, cs)` has `⌈n / cs⌉` elements and its `k`-th element is
`k * cs`. -/
def npyChunks (cs : Nat) (rows : List Sample) : List (List Sample) :=
  (List.range ((rows.length + cs - 1) / cs)).map
    (fun k => (rows.drop (k * cs)).take cs)

/-- `SignalAnalyzer._read_signal`: the chunk sequence produced for a file.
A missing path yields nothing (soft failure, only a console message), an
unsupported suffix falls through the `match` and yields nothing. -/
def read_signal (file : SignalFile) (cs : Nat) : List (List Sample) :=
  match file with
  | .missing => []
  | .csv rows => csvChunks cs rows
  | .npy rows => npyChunks cs rows
  | .unsupported => []

/-- Result of `SignalAnalyzer._read_signal_at`: the `x_array` linear ramp,
the `y_array` of rows (a `none` entry is a `NaN` "missing marker" row), and
the possibly-updated `self.max_x`. -/
structure ReadAtResult : Type where
  xs : List Nat
  ys : List (Option Sample)
  maxx : Int
deriving DecidableEq

/-- `SignalAnalyzer._read_signal_at start_x end_x` for non-negative window
requests.  `x_array = np.linspace(start_x, end_x - 1, end_x - start_x)` is the
integer ramp `start_x, …, end_x - 1`.  A missing path, a `.csv` file and an
unsupported suffix all log an error and return an all-`NaN` y-window of the
requested length.  The `.npy` branch refreshes `max_x` to the file's row count
and splits on `end_x < max_x` / `start_x < max_x` exactly as the source:
a straddling request returns the available tail of the file padded with `NaN`
rows (`y_array[: max_x - start_x] = signal[start_x:]` over an all-`NaN`
array). -/
def read_signal_at (file : SignalFile) (max_x : Int) (start_x end_x : Nat) :
    ReadAtResult :=
  let xs := (List.range (end_x - start_x)).map (fun i => start_x + i)
  match file with
  | .missing => ⟨xs, List.replicate (end_x - start_x) none, max_x⟩
  | .csv _ => ⟨xs, List.replicate (end_x - start_x) none, max_x⟩
  | .npy rows =>
    let m := rows.length
    if end_x < m then
      ⟨xs, ((rows.drop start_x).take (end_x - start_x)).map some, (m : Int)⟩
    else if start_x < m then
      ⟨xs, (rows.drop start_x).map some ++
            List.replicate (end_x - m) none, (m : Int)⟩
    else
      ⟨xs, List.replicate (end_x - start_x) none, (m : Int)⟩
  | .unsupported => ⟨xs, List.replicate (end_x - start_x) none, max_x⟩

/-- The mutable state of a `SignalAnalyzer` instance (`__init__` fields).
The `signal_path` is passed around explicitly as a `SignalFile`; `y_min` is an
`Option Int` with `none` standing for the initial `+inf`, `y_max` an
`Option Int` with `none` standing for the initial `-inf`; a `none` entry of
`y_array` is a `NaN` missing marker. -/
structure AnalyzerState : Type where
  x : Int
  max_x : Int
  window_size : Nat
  chunk_size : Nat
  x_array : List Rat
  y_array : List (Option Int)
  y_min : Option Int
  y_max : Option Int
  running : Bool

/-- `SignalAnalyzer.__init__`: 10 minutes of signal at 50000 samples/s,
ten-second chunks, `x_array = np.zeros`, `y_array = np.zeros * np.nan`
(all missing), extrema at `(+inf, -inf)`. -/
def mkAnalyzer : AnalyzerState where
  x := 0
  max_x := 0
  window_size := 600 * 50000
  chunk_size := 500000
  x_array := List.replicate (600 * 50000) 0
  y_array := List.replicate (600 * 50000) none
  y_min := none
  y_max := none
  running := false

/-- A small analyzer state (window of 2 samples, chunk size 1), used to
instantiate the universally quantified theorems on concrete inputs. -/
def smallAnalyzer : AnalyzerState where
  x := 0
  max_x := 0
  window_size := 2
  chunk_size := 1
  x_array := [0, 0]
  y_array := [none, none]
  y_min := none
  y_max := none
  running := false

/-- `np.roll(l, -c)`: cyclic left rotation by `c` (numpy rolls modulo the
length; a negative shift of `c` moves entry `c` to the front). -/
def rollLeft (l : List (Option Int)) (c : Nat) : List (Option Int) :=
  if l.length = 0 then l
  else l.drop (c % l.length) ++ l.take (c % l.length)

/-- `l[-t.length:] = t`: overwrite the trailing `t.length` entries of `l`
(numpy requires `0 < t.length ≤ l.length`, which holds at every use: chunks
are non-empty and no longer than the window). -/
def setTail (l t : List (Option Int)) : List (Option Int) :=
  l.take (l.length - t.length) ++ t

/-- `np.nanmin` over the window: minimum of the non-missing entries, `none`
(meaning `NaN`) when every entry is missing. -/
def nanMin (ys : List (Option Int)) : Option Int :=
  match ys.reduceOption with
  | [] => none
  | v :: vs => some (vs.foldl min v)

/-- `np.nanmax` over the window. -/
def nanMax (ys : List (Option Int)) : Option Int :=
  match ys.reduceOption with
  | [] => none
  | v :: vs => some (vs.foldl max v)

/-- `self.y_min = y_min if (y_min := np.nanmin(self.y_array)) < self.y_min
else self.y_min`.  A `NaN` result of `nanmin` compares false and keeps the
old bound; any finite value is below the initial `+inf` (`none`). -/
def updateYMin (cur : Option Int) (ys : List (Option Int)) : Option Int :=
  match nanMin ys with
  | none => cur
  | some m =>
    match cur with
    | none => some m
    | some c => if m < c then some m else some c

/-- Symmetric running-maximum update (`none` = `-inf`). -/
def updateYMax (cur : Option Int) (ys : List (Option Int)) : Option Int :=
  match nanMax ys with
  | none => cur
  | some m =>
    match cur with
    | none => some m
    | some c => if c < m then some m else some c

/-- One iteration of the `for chunk in self._read_signal(...)` loop body of
`SignalAnalyzer.start` (lines 167-175): recompute the x ramp from the old
cursor, ring-shift the y window by the delivered chunk length and overwrite
its tail with the chunk's second column, advance the cursor by the chunk
length, then widen the running extrema from the new window. -/
def streamStep (st : AnalyzerState) (chunk : List Sample) : AnalyzerState :=
  let c := chunk.length
  let xs := (List.range st.window_size).map
    (fun i : Nat => (((st.x + (i : Int)) : Int) : Rat) / 50000)
  let ys := setTail (rollLeft st.y_array c) (chunk.map (fun s => some s.2))
  { st with
    x := st.x + c
    x_array := xs
    y_array := ys
    y_min := updateYMin st.y_min ys
    y_max := updateYMax st.y_max ys }

/-- A delivery on the `set_chart_axis_y` channel: the `(y_min, y_max)` pair
handed to the renderer through the blocking signal. -/
abbrev Delivery : Type := Option Int × Option Int

/-- Has `stop()` been observed at iteration checkpoint `k`?  `stopAt = some s`
means the asynchronous `running = False` write is visible from the `s`-th
check of `self.running` onwards. -/
def stopObserved (stopAt : Option Nat) (k : Nat) : Bool :=
  match stopAt with
  | some s => s ≤ k
  | none => false

/-- Result of one pass of the chunk loop: final state, next checkpoint
counter, and the trace of `(chunk processed, state after the iteration)`. -/
structure PassResult : Type where
  state : AnalyzerState
  k : Nat
  trace : List (List Sample × AnalyzerState)

/-- The inner `for` loop of `SignalAnalyzer.start`: each iteration first
checks `self.running` (a pending `stop()` breaks out before the chunk is
processed), then runs `streamStep`. -/
def passGo (stopAt : Option Nat) (k : Nat) (st : AnalyzerState) :
    List (List Sample) → PassResult
  | [] => ⟨st, k, []⟩
  | ch :: rest =>
    if stopObserved stopAt k then ⟨{ st with running := false }, k, []⟩
    else
      let st' := streamStep st ch
      let r := passGo stopAt (k + 1) st' rest
      ⟨r.state, r.k, (ch, st') :: r.trace⟩

/-- Extrema deliveries of a pass: each processed iteration emits the updated
`(y_min, y_max)` through `set_chart_axis_y`. -/
def passDeliveries (tr : List (List Sample × AnalyzerState)) : List Delivery :=
  tr.map (fun p => (p.2.y_min, p.2.y_max))

/-- Result of a whole `SignalAnalyzer.start` run: final state, number of
executed passes of the `while self.running` loop, and all extrema
deliveries in order. -/
structure RunResult : Type where
  state : AnalyzerState
  passes : Nat
  deliveries : List Delivery

/-- The `max_x` refresh performed by the `_read_signal` generator header:
the `.npy` branch sets `self.max_x` to the file's row count, every other
branch leaves it unchanged. -/
def refreshMaxX (file : SignalFile) (mx : Int) : Int :=
  match file with
  | .npy rows => (rows.length : Int)
  | _ => mx

/-- The `while self.running:` loop of `SignalAnalyzer.start`, with explicit
fuel.  Each pass resets the cursor to `-window_size`, lets the `.npy`
generator refresh `max_x`, runs the chunk loop, and then executes line 201,
`self.running = False` ("Stop while-loop when the file ends"). -/
def whileGo (file : SignalFile) (stopAt : Option Nat) :
    Nat → AnalyzerState → Nat → Nat → RunResult
  | 0, st, passes, _ => ⟨st, passes, []⟩
  | fuel + 1, st, passes, k =>
    if st.running then
      let st1 := { st with
        x := -(st.window_size : Int)
        max_x := refreshMaxX file st.max_x }
      let p := passGo stopAt k st1 (read_signal file st1.chunk_size)
      let st2 := { p.state with running := false }
      let r := whileGo file stopAt fuel st2 (passes + 1) p.k
      ⟨r.state, r.passes, passDeliveries p.trace ++ r.deliveries⟩
    else ⟨st, passes, []⟩

/-- `SignalAnalyzer.start`: `_start` sets `running` and emits the current
extrema once on `set_chart_axis_y`, then the while loop runs. -/
def startRun (fuel : Nat) (st0 : AnalyzerState) (file : SignalFile)
    (stopAt : Option Nat) : RunResult :=
  let st := { st0 with running := true }
  let r := whileGo file stopAt fuel st 0 0
  ⟨r.state, r.passes, (st.y_min, st.y_max) :: r.deliveries⟩

/-- `SignalAnalyzer.load_window start_x end_x`: emits the current extrema,
reads the window via `_read_signal_at`, scales the x ramp by the 50000
samples/s divisor, keeps the second y column, widens the extrema from the new
window and emits them again.  The cursor `self.x` is not touched.  Returns
the new state and the two `set_chart_axis_y` deliveries. -/
def load_window (st : AnalyzerState) (start_x end_x : Nat)
    (file : SignalFile) : AnalyzerState × List Delivery :=
  let r := read_signal_at file st.max_x start_x end_x
  let xs := r.xs.map (fun n => ((n : Int) : Rat) / 50000)
  let ys := r.ys.map (fun o => o.map Prod.snd)
  let ymin := updateYMin st.y_min ys
  let ymax := updateYMax st.y_max ys
  let st' := { st with
    max_x := r.maxx
    x_array := xs
    y_array := ys
    y_min := ymin
    y_max := ymax }
  (st', [(st.y_min, st.y_max), (ymin, ymax)])

/-- `SignalAnalyzer.current_window`: load the window at the current cursor.
(The Python call passes the signed cursor to `load_window`; every state these
theorems apply it to has a non-negative cursor, where `Int.toNat` is exact.) -/
def current_window (st : AnalyzerState) (file : SignalFile) :
    AnalyzerState × List Delivery :=
  load_window st st.x.toNat (st.x + st.window_size).toNat file

/-- `SignalAnalyzer.previous_window`: step the cursor back by one window,
clamped to `0` whenever `self.x > self.window_size` fails, then load. -/
def previous_window (st : AnalyzerState) (file : SignalFile) :
    AnalyzerState × List Delivery :=
  let x' : Int := if st.window_size < st.x then st.x - st.window_size else 0
  load_window { st with x := x' } x'.toNat (x' + st.window_size).toNat file

/-- `SignalAnalyzer.next_window`: advance the cursor by one window only when
`self.max_x > self.x + self.window_size` for the last-known row count. -/
def next_window (st : AnalyzerState) (file : SignalFile) :
    AnalyzerState × List Delivery :=
  let x' : Int :=
    if st.x + st.window_size < st.max_x then st.x + st.window_size else st.x
  load_window { st with x := x' } x'.toNat (x' + st.window_size).toNat file

/-- `SignalAnalyzer.has_previous_window`: `return self.x > 0`. -/
def has_previous_window (st : AnalyzerState) : Bool :=
  decide (0 < st.x)

/-- `SignalAnalyzer.has_next_window`:
`return self.x < self.max_x - self.window_size`. -/
def has_next_window (st : AnalyzerState) : Bool :=
  decide (st.x < st.max_x - st.window_size)

/-- How one `SignalConverter.start` run ended: a normal `return b`, or an
uncaught exception (`np.memmap` refuses a zero-row shape). -/
inductive ConvOutcome : Type where
  | returned (b : Bool) : ConvOutcome
  | raised : ConvOutcome
deriving DecidableEq

/-- Result of one `SignalConverter.start` run.  `target` is the target
file's contents, with `none` meaning the path is absent from disk;
`progress` is the sequence of integer percentages delivered through the
`Signal(int)` progress channel (the C++ signature truncates the emitted
float toward zero). -/
structure ConvResult : Type where
  outcome : ConvOutcome
  target : Option (List Sample)
  progress : List Nat
deriving DecidableEq

/-- Counting phase of `SignalConverter.start`: one `row_count += 1` and one
`self.cancelled` poll per data row.  `cd` is the countdown to the checkpoint
at which the asynchronous `cancel()` write becomes visible (`some 0` =
visible now, `none` = never).  Returns the countdown after the loop, the row
count, and whether the phase returned `False` on a cancellation. -/
def countGo (cd : Option Nat) (rc : Nat) :
    List Sample → Option Nat × Nat × Bool
  | [] => (cd, rc, false)
  | _ :: rest =>
    match cd with
    | some 0 => (some 0, rc + 1, true)
    | some (d + 1) => countGo (some d) (rc + 1) rest
    | none => countGo none (rc + 1) rest

/-- Writing phase of `SignalConverter.start`: per row, write
`data[index, :] = row` (an `int16` store), flush every `50000 * 60` rows
(no observable effect on the contents), emit `int((index / row_count) * 100)`
every `50000` rows when a callback is attached, then poll `self.cancelled`.
`progRev` accumulates the emitted percentages in reverse.  Returns the
countdown after the loop, the final contents, the emissions, and whether the
loop returned `False` on a cancellation (which unlinks the target). -/
def writeGo (L : Nat) (hasCb : Bool) (cd : Option Nat) (data : List Sample)
    (j : Nat) (progRev : List Nat) :
    List Sample → Option Nat × List Sample × List Nat × Bool
  | [] => (cd, data, progRev, false)
  | r :: rest =>
    let data' := data.set j (wrapI16 r.1, wrapI16 r.2)
    let progRev' :=
      if hasCb && (j % 50000 == 0) then (j * 100) / L :: progRev else progRev
    match cd with
    | some 0 => (some 0, data', progRev', true)
    | some (d + 1) => writeGo L hasCb (some d) data' (j + 1) progRev' rest
    | none => writeGo L hasCb none data' (j + 1) progRev' rest

/-- `SignalConverter.start` on a CSV whose data rows are `rows` (blank lines
are not modelled).  `cancelAfter = some c` means `cancel()` becomes visible
at the `c`-th polled checkpoint of the run: checkpoints `0 … L-1` are the
counting-phase polls, `L … 2L-1` the writing-phase polls, and `2L` the
region after the writing loop (`data.flush()` up to `return`).  A counting
cancellation returns `False` before any target file exists; a writing
cancellation unlinks the target and returns `False`; a cancellation observed
only after the loop unlinks the target only when a progress callback is
attached (the source guards the cleanup with `if self.cancelled and
progress_callback`), and `np.memmap` with zero rows raises with the empty
target file left behind. -/
def converterStart (rows : List Sample) (cancelAfter : Option Nat)
    (hasCb : Bool) : ConvResult :=
  let progRev0 : List Nat := if hasCb then [0] else []
  let c := countGo cancelAfter 0 rows
  if c.2.2 then ⟨.returned false, none, progRev0.reverse⟩
  else if c.2.1 = 0 then ⟨.raised, some [], progRev0.reverse⟩
  else
    let data0 := List.replicate c.2.1 ((0 : Int), (0 : Int))
    let w := writeGo c.2.1 hasCb c.1 data0 0 progRev0 rows
    if w.2.2.2 then ⟨.returned false, none, w.2.2.1.reverse⟩
    else if w.1 = some 0 then
      if hasCb then ⟨.returned false, none, (0 :: w.2.2.1).reverse⟩
      else ⟨.returned false, some w.2.1, w.2.2.1.reverse⟩
    else
      ⟨.returned true, some w.2.1,
        (if hasCb then 100 :: w.2.2.1 else w.2.2.1).reverse⟩

/-- One operation a driver can run on the shared analyzer instance. -/
inductive AOp : Type where
  | stream (file : SignalFile) (fuel : Nat) (stopAt : Option Nat) : AOp
  | loadw (start_x end_x : Nat) (file : SignalFile) : AOp
  | currentw (file : SignalFile) : AOp
  | nextw (file : SignalFile) : AOp
  | prevw (file : SignalFile) : AOp

/-- Apply one operation; return the new state and its extrema deliveries. -/
def applyOp (st : AnalyzerState) : AOp → AnalyzerState × List Delivery
  | .stream file fuel stopAt =>
    let r := startRun fuel st file stopAt
    (r.state, r.deliveries)
  | .loadw s e file => load_window st s e file
  | .currentw file => current_window st file
  | .nextw file => next_window st file
  | .prevw file => previous_window st file

/-- A session: a sequence of operations on one analyzer instance, collecting
every extrema delivery in order. -/
def sessionGo (st : AnalyzerState) : List AOp → AnalyzerState × List Delivery
  | [] => (st, [])
  | op :: rest =>
    let r := applyOp st op
    let r' := sessionGo r.1 rest
    (r'.1, r.2 ++ r'.2)

/-- Order on running minima: `a ≤ b` where `none` is `+inf`. -/
def minLe (a b : Option Int) : Bool :=
  match a, b with
  | _, none => true
  | none, some _ => false
  | some v, some w => decide (v ≤ w)

/-- Order on running maxima: `a ≤ b` where `none` is `-inf`. -/
def maxLe (a b : Option Int) : Bool :=
  match a, b with
  | none, _ => true
  | some _, none => false
  | some v, some w => decide (v ≤ w)

/-- Delivery `d1` (earlier) is only widened by delivery `d2` (later): the
minimum never rises and the maximum never falls. -/
def widens (d1 d2 : Delivery) : Prop :=
  minLe d2.1 d1.1 = true ∧ maxLe d1.2 d2.2 = true

/-- A widening chain anchored at `d`: every delivery widens its
predecessor, the first one widening `d` itself. -/
def extChain (d : Delivery) : List Delivery → Prop
  | [] => True
  | d' :: rest => widens d d' ∧ extChain d' rest

/-- Invariant of the streamed iteration trace: after every iteration, both
window arrays have length exactly `W` and the cursor advanced by exactly the
length of the chunk delivered in that iteration (strictly increasing). -/
def windowInv (W : Nat) : AnalyzerState → List (List Sample × AnalyzerState) → Prop
  | _, [] => True
  | prev, (ch, s) :: rest =>
    s.y_array.length = W ∧ s.x_array.length = W ∧
      s.x = prev.x + ch.length ∧ prev.x < s.x ∧ windowInv W s rest

/-- Cursor states reachable through the paging interface alone
(`current_window` / `next_window` / `previous_window` from a fresh
analyzer). -/
inductive PagingReach : AnalyzerState → Prop where
  | init : PagingReach mkAnalyzer
  | currentw (st : AnalyzerState) (file : SignalFile) :
      PagingReach st → PagingReach (current_window st file).1
  | nextw (st : AnalyzerState) (file : SignalFile) :
      PagingReach st → PagingReach (next_window st file).1
  | prevw (st : AnalyzerState) (file : SignalFile) :
      PagingReach st → PagingReach (previous_window st file).1

/-- The analyzer state after one full streaming run (`start`) over a 10-row
binary file: the pass resets the cursor to `-window_size` and advances it by
the single 10-row chunk, leaving `x = -30000000 + 10 < 0`. -/
def afterStreamState : AnalyzerState :=
  (startRun 1 mkAnalyzer (.npy (List.replicate 10 ((1 : Int), (2 : Int))))
    none).state

/-- The last delivery of a list, or `d` when the list is empty. -/
def lastD (ds : List Delivery) (d : Delivery) : Delivery :=
  match ds with
  | [] => d
  | a :: t => lastD t a

/-- `ds` is a widening chain of extrema deliveries anchored at the current
extrema of `st` and ending at the extrema of `st'`. -/
def anchors (st : AnalyzerState) (ds : List Delivery)
    (st' : AnalyzerState) : Prop :=
  extChain (st.y_min, st.y_max) ds ∧
  lastD ds (st.y_min, st.y_max) = (st'.y_min, st'.y_max)

/-- Claim C1 (code bug): the chunked CSV reader is claimed to emit, for the
3-row file `(1,2),(3,4),(5,6)` with chunk size 2, the chunks `[(1,2),(3,4)]`
then `[(5,6)]`, concatenating in order to all 3 rows.  The code instead
yields only after row `i` with `i % chunk_size == 0` has already overwritten
buffer slot `i % chunk_size`, so it emits the single chunk `[(5,6),(3,4)]`:
row `(1,2)` is lost, the order is scrambled, and the concatenation has
length 2 ≠ 3. -/
theorem read_signal_csv_chunk_bug :
    read_signal (.csv [(1, 2), (3, 4), (5, 6)]) 2 = [[(5, 6), (3, 4)]] ∧
    read_signal (.csv [(1, 2), (3, 4), (5, 6)]) 2 ≠
      [[(1, 2), (3, 4)], [(5, 6)]] ∧
    (read_signal (.csv [(1, 2), (3, 4), (5, 6)]) 2).foldr
        (fun ch n => ch.length + n) 0 ≠ 3 := by
  refine ⟨by decide, by decide, by decide⟩

/-- Claim C3: for a binary file of `R` rows and any window request
`start < end`, the y-window has length exactly `end - start`; for
`end ≤ R` no entry is a missing marker; for `start ≥ R` every entry is a
missing marker; and for `start < R < end` the result is exactly the
`R - start` real rows of the file followed by `end - R` missing markers. -/
theorem read_signal_at_window_padding (rows : List Sample) (mx : Int)
    (s e : Nat) (hse : s < e) :
    (read_signal_at (.npy rows) mx s e).ys.length = e - s ∧
    (e ≤ rows.length → ∀ y ∈ (read_signal_at (.npy rows) mx s e).ys, y ≠ none) ∧
    (rows.length ≤ s → ∀ y ∈ (read_signal_at (.npy rows) mx s e).ys, y = none) ∧
    (s < rows.length → rows.length < e →
      (read_signal_at (.npy rows) mx s e).ys =
        (rows.drop s).map some ++ List.replicate (e - rows.length) none) := by
  simp only [read_signal_at]
  split_ifs with h1 h2
  · refine ⟨?_, ?_, ?_, ?_⟩
    · simp only [List.length_map, List.length_take, List.length_drop]
      omega
    · intro _ y hy
      simp only [List.mem_map] at hy
      obtain ⟨a, -, rfl⟩ := hy
      simp
    · intro hs
      omega
    · intro _ hR
      omega
  · refine ⟨?_, ?_, ?_, ?_⟩
    · simp only [List.length_append, List.length_map, List.length_drop,
        List.length_replicate]
      omega
    · intro he y hy
      have he' : e = rows.length := by omega
      subst he'
      simp only [Nat.sub_self, List.replicate_zero, List.append_nil] at hy
      simp only [List.mem_map] at hy
      obtain ⟨a, -, rfl⟩ := hy
      simp
    · intro hs
      omega
    · intro _ _
      rfl
  · refine ⟨?_, ?_, ?_, ?_⟩
    · simp
    · intro he
      omega
    · intro _ y hy
      exact (List.eq_of_mem_replicate hy)
    · intro hs
      omega

/-- Claim C3 witness: a 10-row binary file with `loadWindow(8, 12)` gives a
window of length 4: 2 real rows followed by 2 missing-marker rows. -/
theorem read_signal_at_window_padding_witness :
    8 < 12 ∧
    ((read_signal_at (.npy (List.replicate 10 ((7 : Int), (8 : Int)))) 0 8 12).ys.length = 12 - 8 ∧
    (12 ≤ (List.replicate 10 ((7 : Int), (8 : Int))).length →
      ∀ y ∈ (read_signal_at (.npy (List.replicate 10 ((7 : Int), (8 : Int)))) 0 8 12).ys, y ≠ none) ∧
    ((List.replicate 10 ((7 : Int), (8 : Int))).length ≤ 8 →
      ∀ y ∈ (read_signal_at (.npy (List.replicate 10 ((7 : Int), (8 : Int)))) 0 8 12).ys, y = none) ∧
    (8 < (List.replicate 10 ((7 : Int), (8 : Int))).length →
      (List.replicate 10 ((7 : Int), (8 : Int))).length < 12 →
      (read_signal_at (.npy (List.replicate 10 ((7 : Int), (8 : Int)))) 0 8 12).ys =
        ((List.replicate 10 ((7 : Int), (8 : Int))).drop 8).map some ++
          List.replicate (12 - (List.replicate 10 ((7 : Int), (8 : Int))).length) none)) :=
  ⟨by decide, read_signal_at_window_padding (List.replicate 10 ((7 : Int), (8 : Int))) 0 8 12 (by decide)⟩

/-- Claim C10: a random-access read on a missing path, a CSV file, or an
unsupported suffix returns (without raising) a full-length all-missing
y-window together with the untouched linear x ramp from `start` to
`end - 1`. -/
theorem read_signal_at_soft_failure (file : SignalFile) (mx : Int)
    (s e : Nat) (_hse : s < e)
    (h : file = .missing ∨ (∃ rs, file = .csv rs) ∨ file = .unsupported) :
    (read_signal_at file mx s e).ys = List.replicate (e - s) none ∧
    (read_signal_at file mx s e).xs =
      (List.range (e - s)).map (fun i => s + i) := by
  rcases h with h | ⟨rs, h⟩ | h <;> subst h <;> exact ⟨rfl, rfl⟩

theorem list_set_append_cons {α : Type} (l : List α) (a : α) (t : List α)
    (v : α) : (l ++ a :: t).set l.length v = l ++ v :: t := by
  induction l with
  | nil => rfl
  | cons b bs ih => simpa [List.set] using ih

theorem countGo_none_eq (rows : List Sample) : ∀ rc : Nat,
    countGo none rc rows = (none, rc + rows.length, false) := by
  induction rows with
  | nil => intro rc; simp [countGo]
  | cons r rest ih =>
    intro rc
    simp only [countGo, ih (rc + 1), List.length_cons, Prod.mk.injEq,
      true_and, and_true]
    omega

theorem countGo_cancel (rows : List Sample) : ∀ (c rc : Nat),
    c < rows.length →
    countGo (some c) rc rows = (some 0, rc + c + 1, true) := by
  induction rows with
  | nil => intro c rc h; simp at h
  | cons r rest ih =>
    intro c rc h
    match c with
    | 0 => rfl
    | c' + 1 =>
      have h' : c' < rest.length := by
        simp only [List.length_cons] at h
        omega
      simp only [countGo, ih c' (rc + 1) h', Prod.mk.injEq, true_and,
        and_true]
      omega

theorem countGo_pass (rows : List Sample) : ∀ (c rc : Nat),
    rows.length ≤ c →
    countGo (some c) rc rows =
      (some (c - rows.length), rc + rows.length, false) := by
  induction rows with
  | nil => intro c rc _; simp [countGo]
  | cons r rest ih =>
    intro c rc h
    match c with
    | 0 => simp at h
    | c' + 1 =>
      have h' : rest.length ≤ c' := by
        simp only [List.length_cons] at h
        omega
      simp only [countGo, ih c' (rc + 1) h', List.length_cons,
        Prod.mk.injEq, Option.some.injEq, true_and, and_true]
      omega

theorem writeGo_cancel (L : Nat) (cb : Bool) (rows' : List Sample) :
    ∀ (d : Nat) (data : List Sample) (j : Nat) (progRev : List Nat),
    d < rows'.length →
    (writeGo L cb (some d) data j progRev rows').2.2.2 = true := by
  induction rows' with
  | nil => intro d data j progRev h; simp at h
  | cons r rest ih =>
    intro d data j progRev h
    match d with
    | 0 => rfl
    | d' + 1 => exact ih d' _ (j + 1) _ (by simpa using h)

theorem writeGo_none_eq (L : Nat) (cb : Bool) (rows' : List Sample) :
    ∀ (pre : List Sample) (progRev : List Nat),
    (writeGo L cb none
        (pre ++ List.replicate rows'.length ((0 : Int), (0 : Int)))
        pre.length progRev rows').2.1 =
      pre ++ rows'.map (fun r => (wrapI16 r.1, wrapI16 r.2)) ∧
    (writeGo L cb none
        (pre ++ List.replicate rows'.length ((0 : Int), (0 : Int)))
        pre.length progRev rows').1 = none ∧
    (writeGo L cb none
        (pre ++ List.replicate rows'.length ((0 : Int), (0 : Int)))
        pre.length progRev rows').2.2.2 = false := by
  induction rows' with
  | nil => intro pre progRev; simp [writeGo]
  | cons r rest ih =>
    intro pre progRev
    have hset : (pre ++ List.replicate (r :: rest).length
          ((0 : Int), (0 : Int))).set pre.length (wrapI16 r.1, wrapI16 r.2) =
        (pre ++ [(wrapI16 r.1, wrapI16 r.2)]) ++
          List.replicate rest.length ((0 : Int), (0 : Int)) := by
      rw [List.length_cons, List.replicate_succ, list_set_append_cons]
      simp
    have hlen : pre.length + 1 = (pre ++ [(wrapI16 r.1, wrapI16 r.2)]).length := by
      simp
    simp only [writeGo, hset, hlen]
    have := ih (pre ++ [(wrapI16 r.1, wrapI16 r.2)])
      (if cb && (pre.length % 50000 == 0) then
        pre.length * 100 / L :: progRev else progRev)
    simpa using this

/-- `np.int16` storage is the identity on values representable in a signed
16-bit integer. -/
theorem wrapI16_eq_self (v : Int) (h0 : -32768 ≤ v) (h1 : v ≤ 32767) :
    wrapI16 v = v := by
  unfold wrapI16
  omega

/-- Claim C2: if the converter observes a cancellation at any row-index
checkpoint — in the counting phase (checkpoints `0 … L-1`) or the writing
phase (checkpoints `L … 2L-1`) — then `start` returns `False` and no target
file remains on disk, with or without a progress callback. -/
theorem converter_cancel_cleanup (rows : List Sample) (hasCb : Bool)
    (c : Nat) (hc : c < 2 * rows.length) :
    (converterStart rows (some c) hasCb).outcome = .returned false ∧
    (converterStart rows (some c) hasCb).target = none := by
  by_cases h1 : c < rows.length
  · simp [converterStart, countGo_cancel rows c 0 h1]
  · have h2 : rows.length ≤ c := Nat.le_of_not_lt h1
    have hne : rows ≠ [] := by
      intro h
      subst h
      simp at hc
    have h3 := writeGo_cancel rows.length hasCb rows (c - rows.length)
      (List.replicate rows.length ((0 : Int), (0 : Int))) 0
      (if hasCb then [0] else []) (by omega)
    simp at h3
    simp [converterStart, countGo_pass rows c 0 h2, hne, h3]

/-- Claim C2 witness: cancellation observed at checkpoint 1 (the second
counting-phase row) of a 2-row conversion without a callback returns `False`
with the target path absent. -/
theorem converter_cancel_cleanup_witness :
    1 < 2 * ([((1 : Int), (2 : Int)), (3, 4)] : List Sample).length ∧
    ((converterStart [((1 : Int), (2 : Int)), (3, 4)] (some 1) false).outcome =
        .returned false ∧
      (converterStart [((1 : Int), (2 : Int)), (3, 4)] (some 1) false).target =
        none) :=
  ⟨by decide, converter_cancel_cleanup [((1 : Int), (2 : Int)), (3, 4)] false 1
    (by decide)⟩

/-- Claim C4 counterexample: the CSV field `40000` is a valid unsigned
16-bit integer, but the converter stores it in the `int16` target, which
wraps it to `-25536`; reading the converted file back yields
`some (-25536, 2) ≠ some (40000, 2)`.  Moreover a well-formed CSV with zero
data rows makes `np.memmap` raise instead of converting. -/
theorem csv_binary_roundtrip_cex :
    (read_signal_at
        (.npy ((converterStart [((40000 : Int), 2)] none true).target.getD []))
        0 0 1).ys ≠ [some ((40000 : Int), (2 : Int))] ∧
    (converterStart ([] : List Sample) none true).outcome = .raised := by
  exact ⟨by decide, by decide⟩

theorem map_wrapI16_id (rows : List Sample)
    (hrange : ∀ p ∈ rows, 0 ≤ p.1 ∧ p.1 ≤ 32767 ∧ 0 ≤ p.2 ∧ p.2 ≤ 32767) :
    rows.map (fun r => (wrapI16 r.1, wrapI16 r.2)) = rows := by
  induction rows with
  | nil => rfl
  | cons p ps ih =>
    obtain ⟨h1, h2, h3, h4⟩ := hrange p (by simp)
    simp only [List.map_cons]
    rw [wrapI16_eq_self p.1 (by omega) h2, wrapI16_eq_self p.2 (by omega) h4,
      ih (fun q hq => hrange q (by simp [hq]))]

/-- Claim C4 (amended): converting a CSV of `N ≥ 1` data rows whose fields
all lie in the signed 16-bit range `[0, 32767]` and reading rows `[0, N)`
back through the binary reader reproduces the original integer values
exactly; fields in `[32768, 65535]` are wrapped modulo `2^16` into the
signed range by the `int16` target array. -/
theorem csv_binary_roundtrip_int16 (rows : List Sample) (hasCb : Bool)
    (mx : Int) (hne : rows ≠ [])
    (hrange : ∀ p ∈ rows, 0 ≤ p.1 ∧ p.1 ≤ 32767 ∧ 0 ≤ p.2 ∧ p.2 ≤ 32767) :
    (converterStart rows none hasCb).outcome = .returned true ∧
    (converterStart rows none hasCb).target = some rows ∧
    (read_signal_at (.npy rows) mx 0 rows.length).ys = rows.map some := by
  have hL : ¬ (rows.length = 0) := fun h => hne (List.length_eq_zero.mp h)
  have hpos : 0 < rows.length := Nat.pos_of_ne_zero hL
  have hw := writeGo_none_eq rows.length hasCb rows []
    (if hasCb then [0] else [])
  simp at hw
  obtain ⟨hdata, hcd, habort⟩ := hw
  refine ⟨?_, ?_, ?_⟩
  · simp [converterStart, countGo_none_eq rows 0, hne, habort, hcd]
  · simp [converterStart, countGo_none_eq rows 0, hne, habort, hcd, hdata,
      map_wrapI16_id rows hrange]
  · simp [read_signal_at, hpos]

/-- Claim C4 (amended) witness: the single-row CSV `(5, 6)` round-trips
exactly through the binary format. -/
theorem csv_binary_roundtrip_int16_witness :
    (([((5 : Int), (6 : Int))] : List Sample) ≠ []) ∧
    (∀ p ∈ ([((5 : Int), (6 : Int))] : List Sample),
      0 ≤ p.1 ∧ p.1 ≤ 32767 ∧ 0 ≤ p.2 ∧ p.2 ≤ 32767) ∧
    ((converterStart [((5 : Int), (6 : Int))] none true).outcome =
        .returned true ∧
      (converterStart [((5 : Int), (6 : Int))] none true).target =
        some [((5 : Int), (6 : Int))] ∧
      (read_signal_at (.npy [((5 : Int), (6 : Int))]) 0 0
          ([((5 : Int), (6 : Int))] : List Sample).length).ys =
        [((5 : Int), (6 : Int))].map some) :=
  ⟨by decide, by decide,
    csv_binary_roundtrip_int16 [((5 : Int), (6 : Int))] true 0 (by decide)
      (by decide)⟩

/-- Claim C10 witness: a CSV file under random access yields the all-missing
window `[none, none, none]` with x ramp `[0, 1, 2]`. -/
theorem read_signal_at_soft_failure_witness :
    0 < 3 ∧
    ((SignalFile.csv [(1, 2)]) = .missing ∨
      (∃ rs, (SignalFile.csv [(1, 2)]) = .csv rs) ∨
      (SignalFile.csv [(1, 2)]) = .unsupported) ∧
    ((read_signal_at (.csv [(1, 2)]) 0 0 3).ys = List.replicate (3 - 0) none ∧
    (read_signal_at (.csv [(1, 2)]) 0 0 3).xs =
      (List.range (3 - 0)).map (fun i => 0 + i)) :=
  ⟨by decide, Or.inr (Or.inl ⟨[(1, 2)], rfl⟩),
    read_signal_at_soft_failure (.csv [(1, 2)]) 0 0 3 (by decide)
      (Or.inr (Or.inl ⟨[(1, 2)], rfl⟩))⟩

theorem whileGo_stopped (file : SignalFile) (stopAt : Option Nat)
    (fuel : Nat) (st : AnalyzerState) (passes k : Nat)
    (h : st.running = false) :
    whileGo file stopAt fuel st passes k = ⟨st, passes, []⟩ := by
  cases fuel with
  | zero => rfl
  | succ f => simp [whileGo, h]

/-- Claim C6 counterexample: a streaming run over a one-chunk binary file
with `stop()` never requested (and fuel for five passes of the while loop)
executes exactly one pass and ends with `running = false`: the loop does not
restart from the top of the file, it terminates at end-of-file (line 201,
`self.running = False`, commented "Stop while-loop when the file ends"). -/
theorem stream_run_single_pass_cex :
    (startRun 5 mkAnalyzer (.npy (List.replicate 10 ((1 : Int), (2 : Int))))
      none).passes = 1 ∧
    (startRun 5 mkAnalyzer (.npy (List.replicate 10 ((1 : Int), (2 : Int))))
      none).state.running = false := by
  have e5 : (5 : Nat) = 4 + 1 := rfl
  rw [e5]
  simp [startRun, whileGo, whileGo_stopped]

/-- Claim C6 (amended): for any positive fuel, any initial state, any file
and any stop schedule, `SignalAnalyzer.start` executes exactly one pass of
the `while self.running` loop and returns with `running = false`: the run
ends when the chunk sequence is exhausted (or on `stop()`), and never
replays the file. -/
theorem stream_run_single_pass (fuel : Nat) (st0 : AnalyzerState)
    (file : SignalFile) (stopAt : Option Nat) (hfuel : 1 ≤ fuel) :
    (startRun fuel st0 file stopAt).passes = 1 ∧
    (startRun fuel st0 file stopAt).state.running = false := by
  obtain ⟨f, rfl⟩ : ∃ f, fuel = f + 1 := ⟨fuel - 1, by omega⟩
  simp [startRun, whileGo, whileGo_stopped]

/-- Claim C6 (amended) witness: a fuel-1 run over an empty binary file. -/
theorem stream_run_single_pass_witness :
    1 ≤ 1 ∧
    ((startRun 1 mkAnalyzer (.npy []) none).passes = 1 ∧
      (startRun 1 mkAnalyzer (.npy []) none).state.running = false) :=
  ⟨by decide, stream_run_single_pass 1 mkAnalyzer (.npy []) none (by decide)⟩

theorem rollLeft_length (l : List (Option Int)) (c : Nat) :
    (rollLeft l c).length = l.length := by
  unfold rollLeft
  split_ifs with h
  · rfl
  · have := Nat.mod_lt c (Nat.pos_of_ne_zero h)
    simp only [List.length_append, List.length_drop, List.length_take]
    omega

theorem setTail_length (l t : List (Option Int)) (h : t.length ≤ l.length) :
    (setTail l t).length = l.length := by
  simp only [setTail, List.length_append, List.length_take]
  omega

theorem streamStep_y_length (st : AnalyzerState) (ch : List Sample)
    (hy : st.y_array.length = st.window_size)
    (hc : ch.length ≤ st.window_size) :
    (streamStep st ch).y_array.length = st.window_size := by
  simp only [streamStep]
  rw [setTail_length, rollLeft_length, hy]
  rw [rollLeft_length, hy]
  simp only [List.length_map]
  exact hc

theorem streamStep_x_length (st : AnalyzerState) (ch : List Sample) :
    (streamStep st ch).x_array.length = st.window_size := by
  simp only [streamStep, List.length_map, List.length_range]

theorem streamStep_x_eq (st : AnalyzerState) (ch : List Sample) :
    (streamStep st ch).x = st.x + ch.length := rfl

/-- Claim C8: throughout a streaming pass (any stop schedule, any chunk
sequence of non-empty chunks no longer than the window), after each
iteration both window arrays have length exactly the configured window size
and the cursor advanced by exactly the delivered chunk length, strictly
increasing even for a short final chunk. -/
theorem window_length_cursor_invariant (stopAt : Option Nat) (k : Nat)
    (st : AnalyzerState) (chunks : List (List Sample))
    (hy : st.y_array.length = st.window_size)
    (hch : ∀ ch ∈ chunks, 0 < ch.length ∧ ch.length ≤ st.window_size) :
    windowInv st.window_size st (passGo stopAt k st chunks).trace := by
  induction chunks generalizing st k with
  | nil => simp [passGo, windowInv]
  | cons ch rest ih =>
    cases hstop : stopObserved stopAt k with
    | true => simp [passGo, hstop, windowInv]
    | false =>
      obtain ⟨hpos, hle⟩ := hch ch (by simp)
      have hws : (streamStep st ch).window_size = st.window_size := rfl
      have hrec := ih (k + 1) (streamStep st ch)
        (by rw [streamStep_y_length st ch hy hle, hws])
        (fun c hc => by rw [hws]; exact hch c (by simp [hc]))
      rw [hws] at hrec
      simp only [passGo, hstop, Bool.false_eq_true, if_false, windowInv]
      exact ⟨streamStep_y_length st ch hy hle, streamStep_x_length st ch,
        streamStep_x_eq st ch, by rw [streamStep_x_eq]; omega, hrec⟩

/-- Claim C8 witness: a two-chunk pass (chunk lengths 1 and 2) over the
small window-2 analyzer. -/
theorem window_length_cursor_invariant_witness :
    smallAnalyzer.y_array.length = smallAnalyzer.window_size ∧
    (∀ ch ∈ [[((1 : Int), (2 : Int))], [(3, 4), (5, 6)]],
      0 < ch.length ∧ ch.length ≤ smallAnalyzer.window_size) ∧
    windowInv smallAnalyzer.window_size smallAnalyzer
      (passGo none 0 smallAnalyzer
        [[((1 : Int), (2 : Int))], [(3, 4), (5, 6)]]).trace :=
  ⟨rfl, by decide,
    window_length_cursor_invariant none 0 smallAnalyzer
      [[((1 : Int), (2 : Int))], [(3, 4), (5, 6)]] rfl (by decide)⟩

theorem pagingReach_x_nonneg (st : AnalyzerState) (h : PagingReach st) :
    0 ≤ st.x := by
  induction h with
  | init => decide
  | currentw st file _ ih => exact ih
  | nextw st file _ ih =>
    have hx : (next_window st file).1.x =
        if st.x + (st.window_size : Int) < st.max_x then
          st.x + (st.window_size : Int) else st.x := rfl
    rw [hx]
    split_ifs
    · omega
    · exact ih
  | prevw st file _ ih =>
    have hx : (previous_window st file).1.x =
        if (st.window_size : Int) < st.x then
          st.x - (st.window_size : Int) else 0 := rfl
    rw [hx]
    split_ifs with hcond
    · omega
    · omega

/-- Claim C9 counterexample: the state left behind by a streaming run over a
10-row binary file is a reachable analyzer state whose cursor is the negative
value `-30000000 + 10`; there `has_previous_window()` returns `false`
although the cursor is not `0`. -/
theorem has_previous_negative_cursor_cex :
    has_previous_window afterStreamState = false ∧
    afterStreamState.x ≠ 0 ∧ afterStreamState.x < 0 := by
  refine ⟨by decide, by decide, by decide⟩

/-- Claim C9 (amended): on every state reachable through the paging
interface alone (`current_window` / `next_window` / `previous_window` from a
fresh analyzer) the cursor is never negative, `has_previous_window()`
returns `false` exactly when the cursor equals `0`, and (there as on every
state) `has_next_window()` returns `false` exactly when
`cursor + windowSize ≥ fileRowCount`.  After a streaming run the cursor can
be negative (file shorter than the window), where `has_previous_window()`
also returns `false`: in general it returns `cursor > 0`. -/
theorem paging_navigation_flags (st : AnalyzerState) (h : PagingReach st) :
    (has_previous_window st = false ↔ st.x = 0) ∧
    (has_next_window st = false ↔ st.max_x ≤ st.x + st.window_size) := by
  have hx := pagingReach_x_nonneg st h
  constructor
  · simp only [has_previous_window, decide_eq_false_iff_not, not_lt]
    omega
  · simp only [has_next_window, decide_eq_false_iff_not, not_lt]
    omega

/-- Claim C9 (amended) witness: the fresh analyzer state. -/
theorem paging_navigation_flags_witness :
    (has_previous_window mkAnalyzer = false ↔ mkAnalyzer.x = 0) ∧
    (has_next_window mkAnalyzer = false ↔
      mkAnalyzer.max_x ≤ mkAnalyzer.x + mkAnalyzer.window_size) :=
  paging_navigation_flags mkAnalyzer PagingReach.init

theorem minLe_refl (a : Option Int) : minLe a a = true := by
  cases a <;> simp [minLe]

theorem maxLe_refl (a : Option Int) : maxLe a a = true := by
  cases a <;> simp [maxLe]

theorem minLe_trans (a b c : Option Int) (h1 : minLe a b = true)
    (h2 : minLe b c = true) : minLe a c = true := by
  cases a <;> cases b <;> cases c <;> simp_all [minLe] <;> omega

theorem maxLe_trans (a b c : Option Int) (h1 : maxLe a b = true)
    (h2 : maxLe b c = true) : maxLe a c = true := by
  cases a <;> cases b <;> cases c <;> simp_all [maxLe] <;> omega

theorem widens_refl (d : Delivery) : widens d d :=
  ⟨minLe_refl d.1, maxLe_refl d.2⟩

theorem widens_trans (d1 d2 d3 : Delivery) (h1 : widens d1 d2)
    (h2 : widens d2 d3) : widens d1 d3 :=
  ⟨minLe_trans d3.1 d2.1 d1.1 h2.1 h1.1, maxLe_trans d1.2 d2.2 d3.2 h1.2 h2.2⟩

theorem updateYMin_widens (cur : Option Int) (ys : List (Option Int)) :
    minLe (updateYMin cur ys) cur = true := by
  unfold updateYMin
  cases nanMin ys with
  | none => exact minLe_refl cur
  | some m =>
    cases cur with
    | none => simp [minLe]
    | some c =>
      by_cases h : m < c <;> simp [h, minLe] <;> omega

theorem updateYMax_widens (cur : Option Int) (ys : List (Option Int)) :
    maxLe cur (updateYMax cur ys) = true := by
  unfold updateYMax
  cases nanMax ys with
  | none => exact maxLe_refl cur
  | some m =>
    cases cur with
    | none => simp [maxLe]
    | some c =>
      by_cases h : c < m <;> simp [h, maxLe] <;> omega

theorem extChain_all (d : Delivery) (l : List Delivery) (h : extChain d l) :
    ∀ d' ∈ l, widens d d' := by
  induction l generalizing d with
  | nil => intro d' hd'; simp at hd'
  | cons a t ih =>
    intro d' hd'
    obtain ⟨hw, hc⟩ := h
    rcases List.mem_cons.mp hd' with rfl | hmem
    · exact hw
    · exact widens_trans d a d' hw (ih a hc d' hmem)

theorem extChain_pairwise (d : Delivery) (l : List Delivery)
    (h : extChain d l) : List.Pairwise widens (d :: l) := by
  induction l generalizing d with
  | nil => simp
  | cons a t ih =>
    obtain ⟨hw, hc⟩ := h
    exact List.Pairwise.cons (extChain_all d (a :: t) ⟨hw, hc⟩) (ih a hc)

theorem lastD_cons (a : Delivery) (t : List Delivery) (d : Delivery) :
    lastD (a :: t) d = lastD t a := rfl

theorem extChain_append (d : Delivery) (l1 l2 : List Delivery)
    (h1 : extChain d l1) (h2 : extChain (lastD l1 d) l2) :
    extChain d (l1 ++ l2) := by
  induction l1 generalizing d with
  | nil => simpa using h2
  | cons a t ih =>
    obtain ⟨hw, hc⟩ := h1
    exact ⟨hw, ih a hc (by rw [lastD_cons] at h2; exact h2)⟩

theorem lastD_append (l1 l2 : List Delivery) (d : Delivery) :
    lastD (l1 ++ l2) d = lastD l2 (lastD l1 d) := by
  induction l1 generalizing d with
  | nil => rfl
  | cons a t ih =>
    rw [List.cons_append, lastD_cons, lastD_cons, ih]

theorem streamStep_widens (st : AnalyzerState) (ch : List Sample) :
    widens (st.y_min, st.y_max)
      ((streamStep st ch).y_min, (streamStep st ch).y_max) :=
  ⟨updateYMin_widens st.y_min _, updateYMax_widens st.y_max _⟩

theorem passGo_anchors (stopAt : Option Nat) (chunks : List (List Sample)) :
    ∀ (k : Nat) (st : AnalyzerState),
    anchors st (passDeliveries (passGo stopAt k st chunks).trace)
      (passGo stopAt k st chunks).state := by
  induction chunks with
  | nil => intro k st; exact ⟨trivial, rfl⟩
  | cons ch rest ih =>
    intro k st
    cases hstop : stopObserved stopAt k with
    | true =>
      simp only [passGo, hstop, if_true]
      exact ⟨trivial, rfl⟩
    | false =>
      obtain ⟨hchain, hlast⟩ := ih (k + 1) (streamStep st ch)
      simp only [passGo, hstop, Bool.false_eq_true, if_false]
      refine ⟨⟨streamStep_widens st ch, hchain⟩, ?_⟩
      rw [passDeliveries, List.map_cons, lastD_cons]
      exact hlast

theorem whileGo_anchors (file : SignalFile) (stopAt : Option Nat)
    (fuel : Nat) :
    ∀ (st : AnalyzerState) (passes k : Nat),
    anchors st (whileGo file stopAt fuel st passes k).deliveries
      (whileGo file stopAt fuel st passes k).state := by
  induction fuel with
  | zero => intro st passes k; exact ⟨trivial, rfl⟩
  | succ f ih =>
    intro st passes k
    by_cases hr : st.running = true
    · simp only [whileGo]
      rw [if_pos hr]
      have h1 := passGo_anchors stopAt (read_signal file st.chunk_size) k
        { st with x := -(st.window_size : Int),
                  max_x := refreshMaxX file st.max_x }
      have h2 := ih
        { (passGo stopAt k
            { st with x := -(st.window_size : Int),
                      max_x := refreshMaxX file st.max_x }
            (read_signal file st.chunk_size)).state with running := false }
        (passes + 1)
        (passGo stopAt k
          { st with x := -(st.window_size : Int),
                    max_x := refreshMaxX file st.max_x }
          (read_signal file st.chunk_size)).k
      unfold anchors at h1 h2 ⊢
      dsimp only at h1 h2 ⊢
      obtain ⟨hc1, hl1⟩ := h1
      obtain ⟨hc2, hl2⟩ := h2
      exact ⟨extChain_append _ _ _ hc1 (by rw [hl1]; exact hc2),
        by rw [lastD_append, hl1]; exact hl2⟩
    · simp only [whileGo, hr, if_false]
      exact ⟨trivial, rfl⟩

theorem startRun_anchors (fuel : Nat) (st0 : AnalyzerState)
    (file : SignalFile) (stopAt : Option Nat) :
    anchors st0 (startRun fuel st0 file stopAt).deliveries
      (startRun fuel st0 file stopAt).state := by
  obtain ⟨hc, hl⟩ := whileGo_anchors file stopAt fuel
    { st0 with running := true } 0 0
  simp only [startRun]
  exact ⟨⟨widens_refl _, hc⟩, by rw [lastD_cons]; exact hl⟩

theorem load_window_anchors (st : AnalyzerState) (s e : Nat)
    (file : SignalFile) :
    anchors st (load_window st s e file).2 (load_window st s e file).1 :=
  ⟨⟨widens_refl _,
    ⟨updateYMin_widens st.y_min _, updateYMax_widens st.y_max _⟩, trivial⟩,
    rfl⟩

theorem applyOp_anchors (st : AnalyzerState) (op : AOp) :
    anchors st (applyOp st op).2 (applyOp st op).1 := by
  cases op with
  | stream file fuel stopAt => exact startRun_anchors fuel st file stopAt
  | loadw s e file => exact load_window_anchors st s e file
  | currentw file => exact load_window_anchors st _ _ file
  | nextw file => exact load_window_anchors _ _ _ file
  | prevw file => exact load_window_anchors _ _ _ file

theorem sessionGo_anchors (ops : List AOp) : ∀ st : AnalyzerState,
    anchors st (sessionGo st ops).2 (sessionGo st ops).1 := by
  induction ops with
  | nil => intro st; exact ⟨trivial, rfl⟩
  | cons op rest ih =>
    intro st
    obtain ⟨hc1, hl1⟩ := applyOp_anchors st op
    obtain ⟨hc2, hl2⟩ := ih (applyOp st op).1
    simp only [sessionGo]
    refine ⟨extChain_append _ _ _ hc1 ?_, ?_⟩
    · rw [hl1]
      exact hc2
    · rw [lastD_append, hl1]
      exact hl2

/-- Claim C5: in a session started on a fresh analyzer (extrema at
`(+inf, -inf)`, modelled as `(none, none)`), across any sequence of
operations (streaming runs and paged window loads), every extrema delivery
only widens every earlier one: for deliveries `D1` before `D2`,
`D1.y_min ≥ D2.y_min` and `D1.y_max ≤ D2.y_max`; the chain is anchored at
`(+inf, -inf)` so any first observed value widens both bounds (the
missing-marker exclusion is built into `nanMin`/`nanMax`, which fold over
the non-`none` entries only). -/
theorem extrema_monotone_widening (st0 : AnalyzerState) (ops : List AOp)
    (hmin : st0.y_min = none) (hmax : st0.y_max = none) :
    List.Pairwise widens
      (((none : Option Int), (none : Option Int)) :: (sessionGo st0 ops).2) := by
  have h := (sessionGo_anchors ops st0).1
  rw [hmin, hmax] at h
  exact extChain_pairwise _ _ h

/-- Claim C5 witness: a one-load session on the small fresh analyzer. -/
theorem extrema_monotone_widening_witness :
    smallAnalyzer.y_min = none ∧ smallAnalyzer.y_max = none ∧
    List.Pairwise widens (((none : Option Int), (none : Option Int)) ::
      (sessionGo smallAnalyzer
        [.loadw 0 2 (.npy [((1 : Int), (5 : Int)), (2, 7)])]).2) :=
  ⟨rfl, rfl, extrema_monotone_widening smallAnalyzer
    [.loadw 0 2 (.npy [((1 : Int), (5 : Int)), (2, 7)])] rfl rfl⟩

theorem writeGo_none_cd (L : Nat) (cb : Bool) (rows' : List Sample) :
    ∀ (data : List Sample) (j : Nat) (progRev : List Nat),
    (writeGo L cb none data j progRev rows').1 = none ∧
    (writeGo L cb none data j progRev rows').2.2.2 = false := by
  induction rows' with
  | nil => intro data j progRev; exact ⟨rfl, rfl⟩
  | cons r rest ih =>
    intro data j progRev
    simp only [writeGo]
    exact ih _ (j + 1) _

theorem writeGo_pass (L : Nat) (cb : Bool) (rows' : List Sample) :
    ∀ (d : Nat) (data : List Sample) (j : Nat) (progRev : List Nat),
    rows'.length ≤ d →
    (writeGo L cb (some d) data j progRev rows').1 =
      some (d - rows'.length) ∧
    (writeGo L cb (some d) data j progRev rows').2.2.2 = false := by
  induction rows' with
  | nil => intro d data j progRev _; exact ⟨rfl, rfl⟩
  | cons r rest ih =>
    intro d data j progRev hd
    match d with
    | 0 => simp at hd
    | d' + 1 =>
      have hd' : rest.length ≤ d' := by
        simp only [List.length_cons] at hd
        omega
      have := ih d' (data.set j (wrapI16 r.1, wrapI16 r.2)) (j + 1)
        (if cb && (j % 50000 == 0) then j * 100 / L :: progRev else progRev)
        hd'
      simp only [writeGo, List.length_cons, Nat.succ_sub_succ_eq_sub]
      exact this

theorem writeGo_skip (L : Nat) (cb : Bool) (rows' : List Sample) :
    ∀ (d : Nat) (data : List Sample) (j : Nat) (progRev : List Nat),
    rows'.length ≤ d →
    (∀ t, t < rows'.length → (j + t) % 50000 ≠ 0) →
    (writeGo L cb (some d) data j progRev rows').2.2.1 = progRev := by
  induction rows' with
  | nil => intro d data j progRev _ _; rfl
  | cons r rest ih =>
    intro d data j progRev hd hmod
    have hj : j % 50000 ≠ 0 := by simpa using hmod 0 (by simp)
    match d with
    | 0 => simp at hd
    | d' + 1 =>
      have hd' : rest.length ≤ d' := by
        simp only [List.length_cons] at hd
        omega
      have hmod' : ∀ t, t < rest.length → (j + 1 + t) % 50000 ≠ 0 := by
        intro t ht
        have h0 := hmod (t + 1) (by simp only [List.length_cons]; omega)
        omega
      have hcond : (cb && (j % 50000 == 0)) = false := by
        simp [hj]
      simp only [writeGo, hcond, Bool.false_eq_true, if_false]
      exact ih d' _ (j + 1) progRev hd' hmod'

theorem writeGo_emit_step (L : Nat) (rows' : List Sample) (r : Sample)
    (d : Nat) (data : List Sample) (j : Nat) (progRev : List Nat)
    (hj : j % 50000 = 0) :
    writeGo L true (some (d + 1)) data j progRev (r :: rows') =
      writeGo L true (some d) (data.set j (wrapI16 r.1, wrapI16 r.2))
        (j + 1) (j * 100 / L :: progRev) rows' := by
  simp [writeGo, hj]

theorem writeGo_append_cd (L : Nat) (cb : Bool) (l1 l2 : List Sample) :
    ∀ (d : Nat) (data : List Sample) (j : Nat) (progRev : List Nat),
    l1.length ≤ d →
    writeGo L cb (some d) data j progRev (l1 ++ l2) =
      writeGo L cb (some (d - l1.length))
        (writeGo L cb (some d) data j progRev l1).2.1
        (j + l1.length)
        (writeGo L cb (some d) data j progRev l1).2.2.1 l2 := by
  induction l1 with
  | nil => intro d data j progRev _; simp [writeGo]
  | cons r rest ih =>
    intro d data j progRev hd
    match d with
    | 0 => simp at hd
    | d' + 1 =>
      have hd' : rest.length ≤ d' := by
        simp only [List.length_cons] at hd
        omega
      have e1 : d' + 1 - (r :: rest).length = d' - rest.length := by
        simp only [List.length_cons]
        omega
      have e2 : j + (r :: rest).length = j + 1 + rest.length := by
        simp only [List.length_cons]
        omega
      rw [e1, e2]
      simp only [List.cons_append, writeGo]
      exact ih d' _ (j + 1) _ hd'

theorem writeGo_emit_step' (L : Nat) (rows' : List Sample) (r : Sample)
    (d : Nat) (data : List Sample) (j : Nat) (progRev : List Nat)
    (hj : j % 50000 = 0) (hd : d ≠ 0) :
    writeGo L true (some d) data j progRev (r :: rows') =
      writeGo L true (some (d - 1)) (data.set j (wrapI16 r.1, wrapI16 r.2))
        (j + 1) (j * 100 / L :: progRev) rows' := by
  match d with
  | 0 => exact absurd rfl hd
  | d' + 1 => simp [writeGo, hj]

theorem writeGo_5e4 (r : Sample) (data : List Sample) :
    (writeGo 50001 true (some 50001) data 0 [0]
      (List.replicate 50001 r)).2.2.1 = [99, 0, 0] ∧
    (writeGo 50001 true (some 50001) data 0 [0]
      (List.replicate 50001 r)).1 = some 0 ∧
    (writeGo 50001 true (some 50001) data 0 [0]
      (List.replicate 50001 r)).2.2.2 = false := by
  have e1 : List.replicate 50001 r = r :: (List.replicate 49999 r ++ [r]) := by
    have h1 : (50001 : Nat) = 50000 + 1 := by norm_num
    have h2 : (50000 : Nat) = 49999 + 1 := by norm_num
    rw [h1, List.replicate_succ, h2, List.replicate_succ']
  rw [e1,
    writeGo_emit_step' 50001 (List.replicate 49999 r ++ [r]) r 50001 data 0
      [0] (by norm_num) (by norm_num)]
  have e2 : (50001 : Nat) - 1 = 50000 := by norm_num
  have e3 : (0 : Nat) + 1 = 1 := by norm_num
  have e4 : (0 : Nat) * 100 / 50001 = 0 := by norm_num
  rw [e2, e3, e4,
    writeGo_append_cd 50001 true (List.replicate 49999 r) [r] 50000 _ 1 _
      (by simp only [List.length_replicate]; omega),
    writeGo_skip 50001 true (List.replicate 49999 r) 50000 _ 1 _
      (by simp only [List.length_replicate]; omega)
      (by
        intro t ht
        simp only [List.length_replicate] at ht
        omega)]
  have e5 : (50000 : Nat) - (List.replicate 49999 r).length = 1 := by
    simp only [List.length_replicate]
  have e6 : (1 : Nat) + (List.replicate 49999 r).length = 50000 := by
    simp only [List.length_replicate]
  rw [e5, e6,
    writeGo_emit_step' 50001 [] r 1 _ 50000 [0, 0] (by norm_num)
      (by norm_num)]
  have e7 : (50000 : Nat) * 100 / 50001 = 99 := by norm_num
  have e8 : (1 : Nat) - 1 = 0 := by norm_num
  rw [e7, e8]
  exact ⟨rfl, rfl, rfl⟩

/-- Claim C7 counterexample: a 50001-row conversion whose cancellation is
observed at the post-writing checkpoint (after the last per-row poll), with
a progress callback attached, delivers the percentage sequence
`[0, 0, 99, 0]` — the cleanup path emits a final reset `0` after `99`, so
the delivered sequence is not monotonically non-decreasing, and the outcome
is `False`. -/
theorem converter_progress_reset_cex :
    (converterStart (List.replicate 50001 ((1 : Int), (2 : Int)))
      (some 100002) true).progress = [0, 0, 99, 0] ∧
    ¬ List.Chain' (fun a b : Nat => a ≤ b)
      (converterStart (List.replicate 50001 ((1 : Int), (2 : Int)))
        (some 100002) true).progress ∧
    (converterStart (List.replicate 50001 ((1 : Int), (2 : Int)))
      (some 100002) true).outcome = .returned false := by
  have hcount := countGo_pass (List.replicate 50001 ((1 : Int), (2 : Int)))
    100002 0 (by simp only [List.length_replicate]; omega)
  simp only [List.length_replicate] at hcount
  have e : (100002 : Nat) - 50001 = 50001 := by norm_num
  have e0 : (0 : Nat) + 50001 = 50001 := by norm_num
  rw [e, e0] at hcount
  obtain ⟨hprog, hcd, habort⟩ := writeGo_5e4 ((1 : Int), (2 : Int))
    (List.replicate 50001 ((0 : Int), (0 : Int)))
  have hmain : (converterStart (List.replicate 50001 ((1 : Int), (2 : Int)))
      (some 100002) true).progress = [0, 0, 99, 0] ∧
      (converterStart (List.replicate 50001 ((1 : Int), (2 : Int)))
        (some 100002) true).outcome = .returned false := by
    rw [converterStart, hcount]
    dsimp only
    rw [if_neg (show ¬(false = true) by simp),
      if_neg (show ¬((50001 : Nat) = 0) by norm_num),
      if_pos (rfl : true = true), habort, hcd, hprog,
      if_neg (show ¬(false = true) by simp),
      if_pos (rfl : (some 0 : Option Nat) = some 0)]
    exact ⟨rfl, rfl⟩
  refine ⟨hmain.1, ?_, hmain.2⟩
  rw [hmain.1]
  intro hch
  rw [List.chain'_cons, List.chain'_cons, List.chain'_cons] at hch
  omega

theorem writeGo_prog_inv (L : Nat) (cb : Bool) (rows' : List Sample) :
    ∀ (cd : Option Nat) (data : List Sample) (j : Nat) (progRev : List Nat),
    List.Chain' (fun a b : Nat => b ≤ a) progRev →
    (∀ p ∈ progRev, p ≤ j * 100 / L) →
    List.Chain' (fun a b : Nat => b ≤ a)
      (writeGo L cb cd data j progRev rows').2.2.1 ∧
    ∀ p ∈ (writeGo L cb cd data j progRev rows').2.2.1,
      p ≤ (j + rows'.length) * 100 / L := by
  induction rows' with
  | nil =>
    intro cd data j progRev h1 h2
    exact ⟨h1, by simpa using h2⟩
  | cons r rest ih =>
    intro cd data j progRev h1 h2
    have hdiv : j * 100 / L ≤ (j + 1) * 100 / L :=
      Nat.div_le_div_right (by omega)
    have hmono : ∀ p ∈ (if cb && (j % 50000 == 0) then
        j * 100 / L :: progRev else progRev), p ≤ (j + 1) * 100 / L := by
      intro p hp
      split_ifs at hp with hc
      · rcases List.mem_cons.mp hp with rfl | hmem
        · exact hdiv
        · exact le_trans (h2 p hmem) hdiv
      · exact le_trans (h2 p hp) hdiv
    have hchain : List.Chain' (fun a b : Nat => b ≤ a)
        (if cb && (j % 50000 == 0) then j * 100 / L :: progRev
          else progRev) := by
      split_ifs with hc
      · refine List.chain'_cons'.mpr ⟨?_, h1⟩
        intro b hb
        exact h2 b (List.mem_of_mem_head? hb)
      · exact h1
    have hmul : (j + 1) * 100 / L ≤ (j + (r :: rest).length) * 100 / L := by
      refine Nat.div_le_div_right ?_
      simp only [List.length_cons]
      have : j + 1 ≤ j + (rest.length + 1) := by omega
      exact Nat.mul_le_mul_right 100 this
    match cd with
    | some 0 =>
      simp only [writeGo]
      exact ⟨hchain, fun p hp => le_trans (hmono p hp) hmul⟩
    | some (d + 1) =>
      obtain ⟨ha, hb⟩ := ih (some d)
        (data.set j (wrapI16 r.1, wrapI16 r.2)) (j + 1)
        (if cb && (j % 50000 == 0) then j * 100 / L :: progRev else progRev)
        hchain hmono
      have eb : j + (r :: rest).length = j + 1 + rest.length := by
        simp only [List.length_cons]
        omega
      rw [eb]
      simp only [writeGo]
      exact ⟨ha, hb⟩
    | none =>
      obtain ⟨ha, hb⟩ := ih none
        (data.set j (wrapI16 r.1, wrapI16 r.2)) (j + 1)
        (if cb && (j % 50000 == 0) then j * 100 / L :: progRev else progRev)
        hchain hmono
      have eb : j + (r :: rest).length = j + 1 + rest.length := by
        simp only [List.length_cons]
        omega
      rw [eb]
      simp only [writeGo]
      exact ⟨ha, hb⟩

theorem progress_plain_ok (w : List Nat)
    (hch : List.Chain' (fun a b : Nat => b ≤ a) w)
    (hbd : ∀ p ∈ w, p ≤ 100) :
    List.Chain' (fun a b : Nat => a ≤ b) w.reverse ∧
    ∀ p ∈ w.reverse, p ≤ 100 := by
  constructor
  · rw [List.chain'_reverse]
    exact hch
  · intro p hp
    exact hbd p (List.mem_reverse.mp hp)

theorem progress_tail_ok (cb : Bool) (w : List Nat)
    (hch : List.Chain' (fun a b : Nat => b ≤ a) w)
    (hbd : ∀ p ∈ w, p ≤ 100) :
    List.Chain' (fun a b : Nat => a ≤ b)
      ((if cb then 100 :: w else w).reverse) ∧
    ∀ p ∈ (if cb then 100 :: w else w).reverse, p ≤ 100 := by
  split_ifs with hcb
  · refine progress_plain_ok (100 :: w) ?_ ?_
    · refine List.chain'_cons'.mpr ⟨?_, hch⟩
      intro b hb
      exact hbd b (List.mem_of_mem_head? hb)
    · intro p hp
      rcases List.mem_cons.mp hp with rfl | hmem
      · exact le_refl 100
      · exact hbd p hmem
  · exact progress_plain_ok w hch hbd

theorem full_ratio_eq_100 (L : Nat) (hL : L ≠ 0) :
    (0 + L) * 100 / (0 + L) = 100 := by
  rw [Nat.zero_add, Nat.mul_comm]
  exact Nat.mul_div_cancel 100 (Nat.pos_of_ne_zero hL)

/-- Claim C7 (amended): during one conversion run, every value delivered to
the progress callback is an integer percentage in `[0, 100]`, and the
delivered sequence is monotonically non-decreasing — including runs
cancelled at any counting- or writing-phase checkpoint — except for the one
path where cancellation is first observed at the post-writing checkpoint
with a callback attached: there a final reset `0` is emitted after possibly
larger percentages. -/
theorem converter_progress_monotone (rows : List Sample) (cAfter : Option Nat)
    (hasCb : Bool)
    (h : ¬ (hasCb = true ∧ cAfter = some (2 * rows.length))) :
    List.Chain' (fun a b : Nat => a ≤ b)
      (converterStart rows cAfter hasCb).progress ∧
    ∀ p ∈ (converterStart rows cAfter hasCb).progress, p ≤ 100 := by
  have hrev0 : List.Chain' (fun a b : Nat => b ≤ a)
      (if hasCb then [0] else []) := by
    split_ifs <;> simp
  have hbase : List.Chain' (fun a b : Nat => a ≤ b)
      ((if hasCb then ([0] : List Nat) else []).reverse) ∧
      ∀ p ∈ (if hasCb then ([0] : List Nat) else []).reverse, p ≤ 100 := by
    refine progress_plain_ok _ hrev0 ?_
    split_ifs <;> simp
  have hbd0 : ∀ L : Nat, ∀ p ∈ (if hasCb then ([0] : List Nat) else []),
      p ≤ 0 * 100 / L := by
    intro L p hp
    split_ifs at hp <;> simp_all
  rcases cAfter with _ | c
  · -- cancellation never requested
    have hcount := countGo_none_eq rows 0
    by_cases hL : rows.length = 0
    · obtain rfl : rows = [] := List.length_eq_zero.mp hL
      rw [converterStart, hcount]
      dsimp only
      rw [if_neg (show ¬(false = true) by simp),
        if_pos (show (0 : Nat) + ([] : List Sample).length = 0 by simp)]
      exact hbase
    · obtain ⟨hcd, habort⟩ := writeGo_none_cd (0 + rows.length) hasCb rows
        (List.replicate (0 + rows.length) ((0 : Int), (0 : Int))) 0
        (if hasCb then [0] else [])
      obtain ⟨hch, hbd⟩ := writeGo_prog_inv (0 + rows.length) hasCb rows none
        (List.replicate (0 + rows.length) ((0 : Int), (0 : Int))) 0
        (if hasCb then [0] else []) hrev0 (hbd0 _)
      rw [converterStart, hcount]
      dsimp only
      rw [if_neg (show ¬(false = true) by simp),
        if_neg (show ¬((0 : Nat) + rows.length = 0) by omega),
        habort, if_neg (show ¬(false = true) by simp), hcd,
        if_neg (show ¬((none : Option Nat) = some 0) by simp)]
      dsimp only
      refine progress_tail_ok hasCb _ hch ?_
      intro p hp
      have hb := hbd p hp
      rwa [full_ratio_eq_100 rows.length hL] at hb
  · -- cancellation requested, visible from checkpoint c on
    by_cases hcl : c < rows.length
    · -- observed while counting
      have hcount := countGo_cancel rows c 0 hcl
      rw [converterStart, hcount]
      dsimp only
      rw [if_pos (rfl : true = true)]
      exact hbase
    · have hc2 : rows.length ≤ c := Nat.le_of_not_lt hcl
      have hcount := countGo_pass rows c 0 hc2
      by_cases hL : rows.length = 0
      · obtain rfl : rows = [] := List.length_eq_zero.mp hL
        rw [converterStart, hcount]
        dsimp only
        rw [if_neg (show ¬(false = true) by simp),
          if_pos (show (0 : Nat) + ([] : List Sample).length = 0 by simp)]
        exact hbase
      · obtain ⟨hch, hbd⟩ := writeGo_prog_inv (0 + rows.length) hasCb rows
          (some (c - rows.length))
          (List.replicate (0 + rows.length) ((0 : Int), (0 : Int))) 0
          (if hasCb then [0] else []) hrev0 (hbd0 _)
        have hbd100 : ∀ p ∈ (writeGo (0 + rows.length) hasCb
            (some (c - rows.length))
            (List.replicate (0 + rows.length) ((0 : Int), (0 : Int))) 0
            (if hasCb then [0] else []) rows).2.2.1, p ≤ 100 := by
          intro p hp
          have hb := hbd p hp
          rwa [full_ratio_eq_100 rows.length hL] at hb
        by_cases habt : c - rows.length < rows.length
        · -- observed while writing: the loop returns early
          have habort := writeGo_cancel (0 + rows.length) hasCb rows
            (c - rows.length)
            (List.replicate (0 + rows.length) ((0 : Int), (0 : Int))) 0
            (if hasCb then [0] else []) habt
          rw [converterStart, hcount]
          dsimp only
          rw [if_neg (show ¬(false = true) by simp),
            if_neg (show ¬((0 : Nat) + rows.length = 0) by omega),
            habort, if_pos (rfl : true = true)]
          exact progress_plain_ok _ hch hbd100
        · -- the writing loop completes
          have hnabt : rows.length ≤ c - rows.length := Nat.le_of_not_lt habt
          obtain ⟨hcd, habort⟩ := writeGo_pass (0 + rows.length) hasCb rows
            (c - rows.length)
            (List.replicate (0 + rows.length) ((0 : Int), (0 : Int))) 0
            (if hasCb then [0] else []) hnabt
          rw [converterStart, hcount]
          dsimp only
          rw [if_neg (show ¬(false = true) by simp),
            if_neg (show ¬((0 : Nat) + rows.length = 0) by omega),
            habort, if_neg (show ¬(false = true) by simp), hcd]
          by_cases h2L : c - rows.length - rows.length = 0
          · -- cancellation became visible only at the post-loop checkpoint,
            -- excluded when the callback is attached
            have hcb : hasCb = false := by
              rcases Bool.eq_false_or_eq_true hasCb with hb | hb
              · exfalso
                apply h
                refine ⟨hb, ?_⟩
                have hcc : c = 2 * rows.length := by omega
                rw [hcc]
              · exact hb
            rw [h2L, if_pos (rfl : (some 0 : Option Nat) = some 0),
              if_neg (show ¬(hasCb = true) by rw [hcb]; simp)]
            exact progress_plain_ok _ hch hbd100
          · rw [if_neg (show ¬(some (c - rows.length - rows.length) =
              some 0) by simp [h2L])]
            dsimp only
            exact progress_tail_ok hasCb _ hch hbd100

/-- Claim C7 (amended) witness: an uncancelled one-row conversion with a
callback. -/
theorem converter_progress_monotone_witness :
    (¬ (true = true ∧ (none : Option Nat) =
      some (2 * ([((1 : Int), (2 : Int))] : List Sample).length))) ∧
    (List.Chain' (fun a b : Nat => a ≤ b)
      (converterStart [((1 : Int), (2 : Int))] none true).progress ∧
    ∀ p ∈ (converterStart [((1 : Int), (2 : Int))] none true).progress,
      p ≤ 100) :=
  ⟨by simp, converter_progress_monotone [((1 : Int), (2 : Int))] none true
    (by simp)⟩
